import Mathlib

/-!
Shallow embedding of `ceres.py`, a sparse time-series storage engine.

Machine doubles are modelled as rationals; a slice file is a list of
cells, where a cell is `none` for an on-disk NaN (a missing sample) and
`some v` for an actual value.  Timestamps, steps and byte offsets are
integers; Python 2 integer `/` and `%` are `Int.ediv` and `Int.emod`
(floor division and nonnegative remainder for positive divisors).
-/

namespace Ceres

abbrev Cell := Option ℚ

def DATAPOINT_SIZE : Int := 8

def MAX_SLICE_GAP : Int := 80

def DEFAULT_TIMESTEP : Int := 60

/-- The loop of `aggregate_avg`: walks the value list carrying the running
`length`, the count `nones` of misses seen and the partial sum `s`; result
`none` models the early `return None` taken when `nones > length` after a
decrement. -/
def aggLoop : List Cell → Nat → Nat → ℚ → Option (ℚ × Nat)
  | [], length, _, s => some (s, length)
  | none :: rest, length, nones, s =>
      if nones + 1 > length - 1 then none
      else aggLoop rest (length - 1) (nones + 1) s
  | some v :: rest, length, nones, s => aggLoop rest length nones (s + v)

/-- `aggregate_avg(values)` from the source: AVG of a list of points. -/
def aggregate_avg (values : List Cell) : Cell :=
  if values.length = 0 then none
  else
    match aggLoop values values.length 0 0 with
    | none => none
    | some (s, length) => some (s / (length : ℚ))

/-- The accumulation loop of `recalculateSeries`: `sub_arr` is the chunk
being filled; a full chunk (length `factor`) emits its average. -/
def recalcLoop (factor : Int) : List Cell → List Cell → List Cell
  | [], sub_arr =>
      if (sub_arr.length : Int) > factor.ediv 4 then [aggregate_avg sub_arr] else []
  | v :: rest, sub_arr =>
      let sub' := sub_arr ++ [v]
      if (sub'.length : Int) = factor then aggregate_avg sub' :: recalcLoop factor rest []
      else recalcLoop factor rest sub'

/-- `recalculateSeries(values, old_timeStep, new_timeStep)` from the source. -/
def recalculateSeries (values : List Cell) (old_timeStep new_timeStep : Int) : List Cell :=
  recalcLoop (new_timeStep.ediv old_timeStep) values []

structure TimeSeriesData where
  startTime : Int
  endTime : Int
  timeStep : Int
  values : List Cell
deriving DecidableEq

/-- `TimeSeriesData.__add__`.  The source's step-equality `ValueError` guard
is not modelled: every call site in `read` concatenates equal-step series. -/
def tsdAdd (a b : TimeSeriesData) : TimeSeriesData :=
  ⟨a.startTime, b.endTime, a.timeStep, a.values ++ b.values⟩

/-- The overwrite/append loop of `TimeSeriesData.merge`.  `endTime0` is the
receiver's end time at loop entry (it is only updated after the loop). -/
def mergeLoop (step endTime0 : Int) : List Cell → List Cell → Int → Int → List Cell
  | [], vals, _, _ => vals
  | v :: rest, vals, ts, index =>
      if ts > endTime0 then mergeLoop step endTime0 rest (vals ++ [v]) (ts + step) index
      else if 0 ≤ index ∧ index.toNat < vals.length then
        mergeLoop step endTime0 rest (vals.set index.toNat v) (ts + step) (index + 1)
      else mergeLoop step endTime0 rest (vals ++ [v]) (ts + step) (index + 1)

/-- `TimeSeriesData.merge(other)`: overwrite in place from the aligned start
of `other`, appending past the end; extend `endTime` if `other` ends later. -/
def tsdMerge (a b : TimeSeriesData) : TimeSeriesData :=
  let ts0 := b.startTime - b.startTime.emod a.timeStep
  let index0 := (ts0 - a.startTime).ediv a.timeStep
  ⟨a.startTime, if b.endTime > a.endTime then b.endTime else a.endTime, a.timeStep,
    mergeLoop a.timeStep a.endTime b.values a.values ts0 index0⟩

structure SliceData where
  startTime : Int
  timeStep : Int
  cells : List Cell
deriving DecidableEq

def SliceData.fileSize (s : SliceData) : Int := DATAPOINT_SIZE * s.cells.length

def SliceData.endTime (s : SliceData) : Int :=
  s.startTime + (s.fileSize.ediv DATAPOINT_SIZE) * s.timeStep

inductive RErr where
  | invalidRequest
  | noData
deriving DecidableEq

inductive WErr where
  | sliceGapTooLarge
  | indexError
  | fuelExhausted
deriving DecidableEq

/-- `CeresSlice.read(fromTime, untilTime)`: `file.read(n)` returns at most
the remaining bytes, and all of them when `n` is negative. -/
def sliceRead (s : SliceData) (fromTime untilTime : Int) : Except RErr TimeSeriesData :=
  let timeOffset := fromTime - s.startTime
  if timeOffset < 0 then .error .invalidRequest
  else
    let pointOffset := timeOffset.ediv s.timeStep
    let byteOffset := pointOffset * DATAPOINT_SIZE
    if byteOffset ≥ s.fileSize then .error .noData
    else
      let pointRange := (untilTime - fromTime).ediv s.timeStep
      let values :=
        if pointRange * DATAPOINT_SIZE < 0 then s.cells.drop pointOffset.toNat
        else (s.cells.drop pointOffset.toNat).take pointRange.toNat
      .ok ⟨fromTime, fromTime + (values.length : Int) * s.timeStep, s.timeStep, values⟩

/-- Overwrite `cells` with `xs` starting at point offset `p`, extending past
the end: the file-level effect of `seek(8*p); write(xs)`. -/
def writeAt (cells : List Cell) (p : Nat) (xs : List Cell) : List Cell :=
  cells.take p ++ xs ++ cells.drop (p + xs.length)

/-- `CeresSlice.write(sequence)`.  The `SliceDeleted` branch is not
modelled: a `SliceData` in hand always has a backing file. -/
def sliceWrite (s : SliceData) (sequence : List (Int × ℚ)) : Except WErr SliceData :=
  match sequence with
  | [] => .error .indexError
  | (t0, _) :: _ =>
    let byteOffset := ((t0 - s.startTime).ediv s.timeStep) * DATAPOINT_SIZE
    let packedValues : List Cell := sequence.map (fun q => some q.2)
    let byteGap := byteOffset - s.fileSize
    if byteGap > 0 then
      let pointGap := byteGap.ediv DATAPOINT_SIZE
      if pointGap > MAX_SLICE_GAP then .error .sliceGapTooLarge
      else .ok ⟨s.startTime, s.timeStep,
        writeAt s.cells ((byteOffset - byteGap).ediv DATAPOINT_SIZE).toNat
          (List.replicate pointGap.toNat none ++ packedValues)⟩
    else .ok ⟨s.startTime, s.timeStep,
      writeAt s.cells (byteOffset.ediv DATAPOINT_SIZE).toNat packedValues⟩

/-- Outcome of `CeresSlice.deleteBefore(t)`: whether `SliceDeleted` was
raised, and the slice file afterwards as `(startTime encoded in the
filename, contents)`, `none` when absent or unlinked. -/
structure DeleteOut where
  raised : Bool
  file : Option (Int × List Cell)
deriving DecidableEq

/-- `CeresSlice.deleteBefore(t)` over an explicit file state (`none` models
a file already absent at entry). -/
def deleteBefore (startTime timeStep : Int) (file : Option (List Cell)) (t : Int) :
    DeleteOut :=
  match file with
  | none => ⟨true, none⟩
  | some cells =>
      let t' := if t.emod timeStep ≠ 0 then t - t.emod timeStep + timeStep else t
      let timeOffset := t' - startTime
      if timeOffset < 0 then ⟨false, some (startTime, cells)⟩
      else
        let pointOffset := timeOffset.ediv timeStep
        let byteOffset := pointOffset * DATAPOINT_SIZE
        if byteOffset = 0 then ⟨false, some (startTime, cells)⟩
        else
          let fileData := cells.drop pointOffset.toNat
          if fileData.isEmpty then ⟨true, none⟩
          else ⟨false, some (t', fileData)⟩

/-- `a` sorts before `b` in the slice enumeration: descending lexicographic
order on `(startTime, timeStep)`, as produced by
`slice_info.sort(reverse=True)` in `readSlices`. -/
def sliceBefore (a b : SliceData) : Bool :=
  decide (b.startTime < a.startTime) ||
    (decide (a.startTime = b.startTime) && decide (b.timeStep ≤ a.timeStep))

def insertSlice (s : SliceData) : List SliceData → List SliceData
  | [] => [s]
  | x :: xs => if sliceBefore s x then s :: x :: xs else x :: insertSlice s xs

/-- `CeresNode.readSlices`: list the node directory and sort the slices by
`(startTime, timeStep)` descending (the on-disk listing order is
irrelevant). -/
def readSlices : List SliceData → List SliceData
  | [] => []
  | x :: xs => insertSlice x (readSlices xs)

/-- A node: its `timeStep` (loaded from metadata) and the slice files in its
directory.  The default slice caching behavior `none` re-enumerates the
directory on every access, so no slice cache is modelled. -/
structure NodeState where
  timeStep : Int
  dir : List SliceData
deriving DecidableEq

/-- `CeresNode.hasDataForInterval(fromTime, untilTime)`; `none` models a
Python `None` argument. -/
def hasDataForInterval (n : NodeState) (fromTime untilTime : Option Int) : Bool :=
  match readSlices n.dir with
  | [] => false
  | s :: rest =>
      let earliestData := ((s :: rest).getLastD ⟨0, 0, []⟩).startTime
      let latestData := s.endTime
      let fromOk := match fromTime with
        | none => true
        | some f => decide (f = 0) || decide (f < latestData)
      let untilOk := match untilTime with
        | none => true
        | some u => decide (u = 0) || decide (u > earliestData)
      fromOk && untilOk

/-- `a` sorts before `b` among datapoints: ascending lexicographic order on
`(timestamp, value)`, as produced by `sorted(...)` in `compact`. -/
def ptBefore (a b : Int × ℚ) : Bool :=
  decide (a.1 < b.1) || (decide (a.1 = b.1) && decide (a.2 ≤ b.2))

def insertPt (p : Int × ℚ) : List (Int × ℚ) → List (Int × ℚ)
  | [] => [p]
  | x :: xs => if ptBefore p x then p :: x :: xs else x :: insertPt p xs

def sortPoints : List (Int × ℚ) → List (Int × ℚ)
  | [] => []
  | x :: xs => insertPt x (sortPoints xs)

/-- The segmentation loop of `CeresNode.compact`: `sequence` is the current
contiguous run and `minTs` the last accepted (floored) timestamp. -/
def compactLoop (tstep : Int) :
    List (Int × ℚ) → List (List (Int × ℚ)) → List (Int × ℚ) → Int → List (List (Int × ℚ))
  | [], sequences, sequence, _ =>
      if sequence.isEmpty then sequences else sequences ++ [sequence]
  | (t, v) :: rest, sequences, sequence, minTs =>
      let ts := t - t.emod tstep
      match sequence with
      | [] => compactLoop tstep rest sequences [(ts, v)] ts
      | q :: qs =>
          if ¬ ts > minTs then compactLoop tstep rest sequences (q :: qs) minTs
          else if ts = ((q :: qs).getLastD (0, 0)).1 + tstep then
            compactLoop tstep rest sequences ((q :: qs) ++ [(ts, v)]) ts
          else compactLoop tstep rest (sequences ++ [q :: qs]) [(ts, v)] ts

/-- `CeresNode.compact(datapoints)`: drop missing values, sort, floor
timestamps to the node step, drop duplicate intervals, and segment into
maximal contiguous runs. -/
def compact (tstep : Int) (datapoints : List (Int × Option ℚ)) : List (List (Int × ℚ)) :=
  let pts := sortPoints (datapoints.filterMap (fun p => p.2.map (fun v => (p.1, v))))
  compactLoop tstep pts [] [] 0

/-- `bisect_left` on a sorted timestamp list. -/
def bisectLeft (l : List Int) (x : Int) : Nat :=
  (l.takeWhile (fun t => decide (t < x))).length

/-- Outcome of the slice walk inside one iteration of the `while sequences`
loop of `CeresNode.write`: a completed write (`break`), a straddling write
that pushed a leftover back on the stack, a walk that exhausted the slice
list, or a propagated exception. -/
inductive DispatchOut where
  | wrote (dir : List SliceData) (needs : List (List (Int × ℚ)))
  | straddled (dir : List SliceData) (leftover : List (Int × ℚ))
      (needs : List (List (Int × ℚ)))
  | exhausted (dir : List SliceData) (needs : List (List (Int × ℚ))) (slicesExist : Bool)
  | failed (e : WErr)

/-- The `for slice in self.slices` loop of `CeresNode.write`, walking the
sorted slices: `done` is the walked part of the directory, `boundary` the
recorded start of the previous (newer) same-step slice. -/
def dispatchLoop (tstep : Int) (sequence : List (Int × ℚ)) (timestamps : List Int)
    (beginningTime endingTime : Int) :
    List SliceData → List SliceData → Option Int → Bool → List (List (Int × ℚ)) →
      DispatchOut
  | done, [], _, slicesExist, needs => .exhausted done needs slicesExist
  | done, s :: rest, boundary, slicesExist, needs =>
      if s.timeStep ≠ tstep then
        dispatchLoop tstep sequence timestamps beginningTime endingTime
          (done ++ [s]) rest boundary slicesExist needs
      else if beginningTime ≥ s.startTime then
        let seqWithin := match boundary with
          | none => sequence
          | some b => sequence.take (bisectLeft timestamps b)
        match sliceWrite s seqWithin with
        | .ok s' => .wrote (done ++ s' :: rest) needs
        | .error .sliceGapTooLarge =>
            match sliceWrite ⟨beginningTime, s.timeStep, []⟩ seqWithin with
            | .ok newS => .wrote (done ++ s :: rest ++ [newS]) needs
            | .error e => .failed e
        | .error e => .failed e
      else if endingTime ≥ s.startTime then
        let bi := bisectLeft timestamps s.startTime
        match sliceWrite s (sequence.drop bi) with
        | .ok s' => .straddled (done ++ s' :: rest) (sequence.take bi) needs
        | .error e => .failed e
      else
        dispatchLoop tstep sequence timestamps beginningTime endingTime
          (done ++ [s]) rest (some s.startTime) true (needs ++ [sequence])

/-- The `while sequences` loop of `CeresNode.write`.  The stack top is the
list's last element (`sequences.pop()`).  Termination is by fuel: every
reachable iteration strictly shrinks the total stack size, so the fuel
budget chosen by `nodeWrite` is never exhausted on reachable inputs. -/
def writeLoop (tstep : Int) :
    Nat → List SliceData → List (List (Int × ℚ)) → List (List (Int × ℚ)) →
      Except WErr (List SliceData × List (List (Int × ℚ)))
  | 0, _, _, _ => .error .fuelExhausted
  | fuel + 1, dir, sequences, needs =>
      match sequences.getLast? with
      | none => .ok (dir, needs)
      | some sequence =>
          let rest := sequences.dropLast
          match sequence with
          | [] => .error .indexError
          | (t0, v0) :: tl =>
              let timestamps := ((t0, v0) :: tl).map Prod.fst
              let beginningTime := t0
              let endingTime := (timestamps.getLastD 0)
              match dispatchLoop tstep ((t0, v0) :: tl) timestamps beginningTime
                  endingTime [] (readSlices dir) none false needs with
              | .wrote dir' needs' => writeLoop tstep fuel dir' rest needs'
              | .straddled dir' leftover needs' =>
                  writeLoop tstep fuel dir' (rest ++ [leftover]) needs'
              | .exhausted dir' needs' slicesExist =>
                  if slicesExist then writeLoop tstep fuel dir' rest needs'
                  else .ok (dir', rest ++ [sequence])
              | .failed e => .error e

/-- The trailing `for sequence in needsEarlierSlice` loop of
`CeresNode.write`: create a slice at the sequence start (truncating any
slice file of the same name) and write the sequence into it. -/
def needsLoop (tstep : Int) :
    List SliceData → List (List (Int × ℚ)) → Except WErr (List SliceData)
  | dir, [] => .ok dir
  | _, [] :: _ => .error .indexError
  | dir, ((t0, v0) :: tl) :: rest =>
      let dir' := dir.filter (fun x => !(decide (x.startTime = t0) && decide (x.timeStep = tstep)))
      match sliceWrite ⟨t0, tstep, []⟩ ((t0, v0) :: tl) with
      | .ok s => needsLoop tstep (dir' ++ [s]) rest
      | .error e => .error e

/-- `CeresNode.write(datapoints)`. -/
def nodeWrite (n : NodeState) (datapoints : List (Int × Option ℚ)) :
    Except WErr NodeState :=
  if datapoints.isEmpty then .ok n
  else
    let sequences := compact n.timeStep datapoints
    let fuel := 2 * (sequences.map List.length).sum + sequences.length + 1
    match writeLoop n.timeStep fuel n.dir sequences [] with
    | .ok (dir, needs) =>
        match needsLoop n.timeStep dir needs with
        | .ok dir' => .ok ⟨n.timeStep, dir'⟩
        | .error e => .error e
    | .error e => .error e

/-- The first loop of `CeresNode.read`: walk the sorted slices accumulating
`biggest_timeStep` and `slices_map`, stopping at the first slice whose
`startTime ≤ fromTime`. -/
def stepScan (fromT untilT : Int) : List SliceData → Int → Int × List SliceData
  | [], biggest => (biggest, [])
  | s :: rest, biggest =>
      if fromT ≥ s.startTime then
        ((if biggest < s.timeStep then s.timeStep else biggest), [s])
      else if untilT ≥ s.startTime then
        let out := stepScan fromT untilT rest
          (if biggest < s.timeStep then s.timeStep else biggest)
        (out.1, s :: out.2)
      else
        let out := stepScan fromT untilT rest biggest
        (out.1, s :: out.2)

/-- The `bogus` test of `CeresNode.read`: a slice strictly contained in a
`slices_map` entry, or outside the requested interval (the latter disjunct
is evaluated once per map entry, so it only fires when the map is
nonempty). -/
def isBogus (map : List SliceData) (untilT fromT : Int) (s : SliceData) : Bool :=
  map.any (fun item =>
    (decide (s.startTime > item.startTime) && decide (s.endTime < item.endTime)) ||
      decide (s.startTime > untilT) || decide (s.endTime < fromT))

/-- The mutable state threaded through the slice-stitching loops of
`CeresNode.read`: `sliceBoundary`, `earliestData`, `resultValues` and
`result_length`. -/
structure ReadSt where
  boundary : Option Int
  earliest : Option Int
  result : Option TimeSeriesData
  resultLength : Int
deriving DecidableEq

inductive StepOut where
  | cont
  | brk
deriving DecidableEq

/-- The body of one `for slice in slices_arr` iteration of
`CeresNode.read`, after the request interval has been clipped to
`[reqF, reqU)`: read the slice, downsample finer slices to `biggest`,
right-pad, and merge into the accumulator.  `brk` models both the
`is_last` break and the `except NoData: break`. -/
def innerBody (biggest : Int) (st : ReadSt) (reqF reqU : Int)
    (isLast : Bool) (newBoundary : Option Int) (s : SliceData) :
    Except RErr (ReadSt × StepOut) :=
  match sliceRead s reqF reqU with
  | .error .noData => .ok ({ st with boundary := newBoundary }, .brk)
  | .error e => .error e
  | .ok series0 =>
      let series1 :=
        if s.timeStep < biggest then
          ⟨series0.startTime, series0.endTime, biggest,
            recalculateSeries series0.values s.timeStep biggest⟩
        else series0
      let rl : Int := match st.result with
        | none => 0
        | some _ => st.resultLength
      let rightMissing := (reqU - series1.endTime).ediv biggest
      let rightNulls : TimeSeriesData :=
        ⟨series1.endTime, series1.endTime + rightMissing, biggest,
          List.replicate (rightMissing - rl).toNat none⟩
      let series2 := tsdAdd series1 rightNulls
      let result' := match st.result with
        | none => series2
        | some r =>
            if r.startTime > series2.startTime then tsdMerge series2 r
            else tsdMerge r series2
      .ok (⟨newBoundary, some series1.startTime, some result',
        (result'.values.length : Int)⟩, if isLast then .brk else .cont)

/-- One iteration of the `for slice in slices_arr` loop of
`CeresNode.read`: clip the request to the slice and the recorded
`sliceBoundary`, then run `innerBody`; slices entirely after the request
just record the boundary and continue. -/
def innerStep (fromT untilT biggest : Int) (st : ReadSt) (s : SliceData) :
    Except RErr (ReadSt × StepOut) :=
  if fromT ≥ s.startTime then
    innerBody biggest st fromT untilT true st.boundary s
  else if untilT ≥ s.startTime then
    let reqU := match st.boundary with
      | some b => if untilT > b then b else untilT
      | none => untilT
    innerBody biggest st s.startTime reqU false (some s.startTime) s
  else .ok ({ st with boundary := some s.startTime }, .cont)

/-- The `for slice in slices_arr` loop of `CeresNode.read`. -/
def innerLoop (fromT untilT biggest : Int) :
    List SliceData → ReadSt → Except RErr ReadSt
  | [], st => .ok st
  | s :: rest, st =>
      match innerStep fromT untilT biggest st s with
      | .ok (st', .cont) => innerLoop fromT untilT biggest rest st'
      | .ok (st', .brk) => .ok st'
      | .error e => .error e

/-- The `for slice_tmp in self.slices` loop of `CeresNode.read`: grow
`slices_arr` with non-bogus slices and re-run the inner loop over the whole
array on every outer iteration, threading the read state through. -/
def outerLoop (fromT untilT biggest : Int) (map : List SliceData) :
    List SliceData → List SliceData → ReadSt → Except RErr ReadSt
  | [], _, st => .ok st
  | s :: rest, arr, st =>
      let arr' := if isBogus map untilT fromT s then arr else arr ++ [s]
      match innerLoop fromT untilT biggest arr' st with
      | .ok st' => outerLoop fromT untilT biggest map rest arr' st'
      | .error e => .error e

/-- `CeresNode.read(fromTime, untilTime)`.  The node's `timeStep` is always
loaded in this model, so the `metadata` local is Python `None` and the
retention fallback reduces to the caught `TypeError` branch
(`biggest_timeStep = DEFAULT_TIMESTEP`). -/
def nodeRead (n : NodeState) (fromTime untilTime : Int) : Except RErr TimeSeriesData :=
  let fromT := fromTime - fromTime.emod n.timeStep
  let untilT := untilTime - untilTime.emod n.timeStep
  let sorted := readSlices n.dir
  let scan := stepScan fromT untilT sorted 1
  let biggest := scan.1
  match outerLoop fromT untilT biggest scan.2 sorted [] ⟨none, none, none, 0⟩ with
  | .error e => .error e
  | .ok st =>
      match st.earliest with
      | none =>
          let biggest' := if biggest = 1 then DEFAULT_TIMESTEP else biggest
          let missing := (untilT - fromT).ediv biggest'
          .ok ⟨fromT, untilT, biggest', List.replicate missing.toNat none⟩
      | some earliestData =>
          let leftMissing := (earliestData - fromT).ediv biggest
          let leftNulls : TimeSeriesData :=
            ⟨fromT, fromT + leftMissing, biggest, List.replicate leftMissing.toNat none⟩
          .ok (tsdAdd leftNulls (st.result.getD ⟨0, 0, 0, []⟩))

/-- A `CeresNode` handle as cached by the tree: it is determined by the
metric name it was constructed from. -/
structure CNode where
  nodePath : String
deriving DecidableEq

/-- `CeresTree.getNode(nodePath)` over an explicit cache and an
`isNodeDir` view of the filesystem; returns the node (or `none`) and the
updated cache. -/
def getNode (cache : List (String × CNode)) (isNodeDir : String → Bool)
    (name : String) : Option CNode × List (String × CNode) :=
  match cache.lookup name with
  | some nd => (some nd, cache)
  | none =>
      if isNodeDir name then (some ⟨name⟩, cache ++ [(name, ⟨name⟩)])
      else (none, cache)

/-! ### Verification -/

/-- Build the step-aligned, gap-free datapoint sequence
`(t0, v0), (t0+s, v1), …` used to exercise `CeresNode.write`. -/
def mkSeq (t0 s : Int) : List ℚ → List (Int × ℚ)
  | [] => []
  | v :: vs => (t0, v) :: mkSeq (t0 + s) s vs

def mkPoints (t0 s : Int) (vs : List ℚ) : List (Int × Option ℚ) :=
  (mkSeq t0 s vs).map (fun q => (q.1, some q.2))

/-- Stated from the spec's words for C6: the union of the slice intervals
`[startTime, endTime)` intersects `[fromT, untilT)`. -/
def specUnionIntersects (n : NodeState) (fromT untilT : Int) : Bool :=
  (readSlices n.dir).any (fun s =>
    decide (max s.startTime fromT < min s.endTime untilT))

/-- `n` consecutive chunks of `f` cells each (spec-side partition for C9). -/
def chunksOf (f : Nat) : Nat → List Cell → List (List Cell)
  | 0, _ => []
  | n + 1, l => l.take f :: chunksOf f n (l.drop f)

def presentVals (l : List Cell) : List ℚ := l.filterMap id

def missingCount (l : List Cell) : Nat := l.countP (fun c => decide (c = none))

set_option maxRecDepth 8000 in
/-- C5: a sequence straddling an existing slice's left boundary is split at
that boundary: the suffix goes into the slice, the prefix creates a new
earlier slice. -/
theorem straddling_write_splits (a b c d : ℚ) :
    nodeWrite ⟨60, [⟨600, 60, []⟩]⟩
        [(480, some a), (540, some b), (600, some c), (660, some d)] =
      .ok ⟨60, [⟨600, 60, [some c, some d]⟩, ⟨480, 60, [some a, some b]⟩]⟩ := rfl

set_option maxRecDepth 100000 in
/-- C2: reading `[0,1800)` across an older step-60 slice spanning `[0,600)`
holding values 1..10 and a newer step-300 slice spanning `[600,1800)`
holding 100..400 yields output step 300 and six values: the older slice's
two buckets of five averaged by `aggregate_avg` (the mean per bucket), the
newer slice's four values verbatim.  The scan of the slices newest-first
raised the output step to 300 at the newer slice and kept it there when the
scan ended at the older slice (whose `startTime ≤ from`). -/
theorem mixed_step_read :
    nodeRead
        ⟨300, [⟨0, 60, [some 1, some 2, some 3, some 4, some 5,
                        some 6, some 7, some 8, some 9, some 10]⟩,
               ⟨600, 300, [some 100, some 200, some 300, some 400]⟩]⟩ 0 1800 =
      .ok ⟨0, 1800, 300,
        [aggregate_avg [some 1, some 2, some 3, some 4, some 5],
         aggregate_avg [some 6, some 7, some 8, some 9, some 10],
         some 100, some 200, some 300, some 400]⟩ := by rfl

set_option maxRecDepth 8000 in
/-- C4 counterexample: writing `(60, 1.0)` and then `(60 + 81*60, 2.0)`
does NOT produce two slices with startTimes `60` and `60 + 81*60` as the
claim states: the 80 missing points equal `MAX_SLICE_GAP`, so the gap is
padded inside the single slice `60@60` and the node's slice list of
startTimes is `[60]`, of length one. -/
theorem gap_81_counterexample :
    (nodeWrite ⟨60, []⟩ [(60, some 1)]).bind
        (fun m => nodeWrite m [(60 + 81 * 60, some 2)]) =
      .ok ⟨60, [⟨60, 60, some 1 :: (List.replicate 80 none ++ [some 2])⟩]⟩ ∧
    Except.map (fun n' : NodeState => (readSlices n'.dir).map SliceData.startTime)
        ((nodeWrite ⟨60, []⟩ [(60, some 1)]).bind
          (fun m => nodeWrite m [(60 + 81 * 60, some 2)])) = .ok [60] ∧
    Except.map (fun n' : NodeState => n'.dir.length)
        ((nodeWrite ⟨60, []⟩ [(60, some 1)]).bind
          (fun m => nodeWrite m [(60 + 81 * 60, some 2)])) = .ok 1 :=
  ⟨rfl, rfl, rfl⟩

set_option maxRecDepth 8000 in
/-- C4 amended: a gap of exactly `81*step` between consecutive writes still
lands in the original slice (padded with 80 missings); a gap of `82*step`
creates a second slice whose start is the later point. -/
theorem gap_boundary_amended :
    (nodeWrite ⟨60, []⟩ [(60, some 1)]).bind
        (fun m => nodeWrite m [(60 + 81 * 60, some 2)]) =
      .ok ⟨60, [⟨60, 60, some 1 :: (List.replicate 80 none ++ [some 2])⟩]⟩ ∧
    (nodeWrite ⟨60, []⟩ [(60, some 1)]).bind
        (fun m => nodeWrite m [(60 + 82 * 60, some 2)]) =
      .ok ⟨60, [⟨60, 60, [some 1]⟩, ⟨60 + 82 * 60, 60, [some 2]⟩]⟩ :=
  ⟨rfl, rfl⟩

theorem emod_eq_mod (a b : Int) : a.emod b = a % b := rfl

theorem aligned_add_step (t s : Int) (h : t.emod s = 0) : (t + s).emod s = 0 := by
  rw [emod_eq_mod] at h ⊢
  rw [show t + s = t + s * 1 by ring, Int.add_mul_emod_self_left]
  exact h

/-- C3: slice-level gap policy of `CeresSlice.write`: with `gap` the byte
distance from the end of the file to the write offset, a positive gap of
more than `MAX_SLICE_GAP` missing points (`gap/8`) fails with
`SliceGapTooLarge`, and otherwise that many NaN cells are prepended and the
whole buffer lands at offset `fileSize`. -/
theorem slice_gap_policy (s : SliceData) (p : Int × ℚ) (ps : List (Int × ℚ))
    (gap : Int)
    (hgap : gap = ((p.1 - s.startTime).ediv s.timeStep) * DATAPOINT_SIZE - s.fileSize)
    (hpos : 0 < gap) :
    (MAX_SLICE_GAP < gap.ediv DATAPOINT_SIZE →
      sliceWrite s (p :: ps) = .error .sliceGapTooLarge) ∧
    (gap.ediv DATAPOINT_SIZE ≤ MAX_SLICE_GAP →
      sliceWrite s (p :: ps) =
        .ok ⟨s.startTime, s.timeStep,
          s.cells ++ (List.replicate (gap.ediv DATAPOINT_SIZE).toNat none ++
            (p :: ps).map (fun q => some q.2))⟩) := by
  obtain ⟨t0, v0⟩ := p
  subst hgap
  simp only [sliceWrite]
  constructor
  · intro hbig
    rw [if_pos hpos, if_pos hbig]
  · intro hsmall
    rw [if_pos hpos, if_neg (not_lt.mpr hsmall)]
    congr 1
    congr 1
    have h1 : ((t0, v0).1 - s.startTime).ediv s.timeStep * DATAPOINT_SIZE -
        (((t0, v0).1 - s.startTime).ediv s.timeStep * DATAPOINT_SIZE - s.fileSize) =
        s.fileSize := by ring
    rw [h1]
    have h2 : s.fileSize.ediv DATAPOINT_SIZE = (s.cells.length : Int) := by
      simp only [SliceData.fileSize, DATAPOINT_SIZE]
      exact Int.mul_ediv_cancel_left _ (by norm_num)
    rw [h2]
    simp only [Int.toNat_natCast, writeAt]
    rw [List.take_of_length_le (le_refl _), List.drop_of_length_le (by simp)]
    simp

/-- Witness for C3 at a positive in-slice gap of 10 points. -/
theorem slice_gap_policy_witness :
    sliceWrite ⟨0, 60, ([] : List Cell)⟩ [((600 : Int), (1 : ℚ))] =
      .ok ⟨0, 60, [] ++ (List.replicate ((80 : Int).ediv DATAPOINT_SIZE).toNat none ++
        [((600 : Int), (1 : ℚ))].map (fun q => some q.2))⟩ :=
  (slice_gap_policy ⟨0, 60, []⟩ (600, 1) [] 80 (by decide) (by decide)).2 (by decide)

/-- C7: `CeresSlice.deleteBefore(t)`: `t` is rounded up to the step grid;
a nonpositive byte offset is a no-op; a nonempty tail is rewritten at
offset 0 and the file renamed to `<t_rounded>@<timeStep>.slice`; and
`SliceDeleted` is raised exactly when the file is absent at entry or the
tail is empty, the file being unlinked in the latter case. -/
theorem delete_before_spec (startTime timeStep : Int) (cells : List Cell) (t : Int)
    (hstep : 0 < timeStep)
    (t' pOff bOff : Int)
    (ht : t' = (if t.emod timeStep ≠ 0 then t - t.emod timeStep + timeStep else t))
    (hp : pOff = (t' - startTime).ediv timeStep)
    (hb : bOff = pOff * DATAPOINT_SIZE) :
    (t'.emod timeStep = 0 ∧ t ≤ t' ∧ t' < t + timeStep) ∧
    (deleteBefore startTime timeStep none t = ⟨true, none⟩) ∧
    (bOff ≤ 0 →
      deleteBefore startTime timeStep (some cells) t = ⟨false, some (startTime, cells)⟩) ∧
    (0 < bOff → cells.drop pOff.toNat ≠ [] →
      deleteBefore startTime timeStep (some cells) t =
        ⟨false, some (t', cells.drop pOff.toNat)⟩) ∧
    (0 < bOff → cells.drop pOff.toNat = [] →
      deleteBefore startTime timeStep (some cells) t = ⟨true, none⟩) := by
  have hD : DATAPOINT_SIZE = 8 := rfl
  rw [hD] at hb
  have hmod : 0 ≤ t.emod timeStep := Int.emod_nonneg t (ne_of_gt hstep)
  have hmodlt : t.emod timeStep < timeStep := Int.emod_lt_of_pos t hstep
  have hround : t'.emod timeStep = 0 ∧ t ≤ t' ∧ t' < t + timeStep := by
    by_cases h0 : t.emod timeStep = 0
    · rw [ht, if_neg (by simp [h0])]
      exact ⟨h0, le_refl t, by omega⟩
    · rw [ht, if_pos h0]
      refine ⟨?_, by omega, by omega⟩
      rw [emod_eq_mod, emod_eq_mod]
      simp [Int.add_emod, Int.sub_emod]
  have hunfold : deleteBefore startTime timeStep (some cells) t =
      (if t' - startTime < 0 then ⟨false, some (startTime, cells)⟩
       else if pOff * DATAPOINT_SIZE = 0 then ⟨false, some (startTime, cells)⟩
       else if (cells.drop pOff.toNat).isEmpty then ⟨true, none⟩
       else ⟨false, some (t', cells.drop pOff.toNat)⟩) := by
    simp only [deleteBefore, ht, hp]
  refine ⟨hround, rfl, ?_, ?_, ?_⟩
  · intro hble
    rw [hunfold]
    by_cases hneg : t' - startTime < 0
    · rw [if_pos hneg]
    · rw [if_neg hneg]
      have hp0 : 0 ≤ pOff := hp ▸ Int.ediv_nonneg (by omega) (le_of_lt hstep)
      have h0 : pOff = 0 := by omega
      rw [if_pos (by rw [h0, hD]; ring)]
  · intro hbpos hne
    have hneg : ¬ t' - startTime < 0 := by
      intro hc
      have : pOff < 0 := hp ▸ Int.ediv_neg' hc hstep
      omega
    rw [hunfold, if_neg hneg, if_neg (by rw [hD]; omega),
      if_neg (by simpa [List.isEmpty_iff] using hne)]
  · intro hbpos he
    have hneg : ¬ t' - startTime < 0 := by
      intro hc
      have : pOff < 0 := hp ▸ Int.ediv_neg' hc hstep
      omega
    rw [hunfold, if_neg hneg, if_neg (by rw [hD]; omega),
      if_pos (by simpa [List.isEmpty_iff] using he)]

/-- Witness for C7: delete before 60 in a two-point slice starting at 0. -/
theorem delete_before_spec_witness :
    deleteBefore 0 60 (some [some 1, some (2 : ℚ)]) 60 =
      ⟨false, some (60, [some 2])⟩ :=
  (delete_before_spec 0 60 [some 1, some 2] 60 (by decide) 60 1 8
    (by decide) (by decide) (by decide)).2.2.2.1 (by decide) (by decide)

theorem aggLoop_spec (l : List Cell) : ∀ (len nones : Nat) (s : ℚ),
    aggLoop l len nones s =
      if 0 < missingCount l ∧ len < nones + 2 * missingCount l then none
      else some (s + (presentVals l).sum, len - missingCount l) := by
  induction l with
  | nil =>
      intro len nones s
      simp [aggLoop, missingCount, presentVals]
  | cons c rest ih =>
      intro len nones s
      match c with
      | some v =>
          rw [show aggLoop (some v :: rest) len nones s = aggLoop rest len nones (s + v)
            from rfl, ih]
          rw [show missingCount (some v :: rest) = missingCount rest from by
            simp [missingCount, List.countP_cons]]
          have h2 : presentVals (some v :: rest) = v :: presentVals rest := by
            simp [presentVals]
          rw [h2]
          split_ifs with h
          · rfl
          · rw [List.sum_cons, add_assoc]
      | none =>
          rw [show aggLoop (none :: rest) len nones s =
            (if nones + 1 > len - 1 then none else aggLoop rest (len - 1) (nones + 1) s)
            from rfl]
          rw [show missingCount (none :: rest) = 1 + missingCount rest from by
            simp [missingCount, List.countP_cons]
            omega]
          have h2 : presentVals (none :: rest) = presentVals rest := by simp [presentVals]
          rw [h2]
          by_cases hearly : nones + 1 > len - 1
          · rw [if_pos hearly, if_pos (by omega)]
          · rw [if_neg hearly, ih]
            by_cases hrest : 0 < missingCount rest ∧
                len - 1 < nones + 1 + 2 * missingCount rest
            · rw [if_pos hrest, if_pos (by omega)]
            · rw [if_neg hrest, if_neg (by omega)]
              congr 1
              congr 1
              omega

theorem length_split (l : List Cell) :
    l.length = (presentVals l).length + missingCount l := by
  induction l with
  | nil => simp [presentVals, missingCount]
  | cons c rest ih =>
      match c with
      | some v => simp [presentVals, missingCount, List.countP_cons] at ih ⊢; omega
      | none => simp [presentVals, missingCount, List.countP_cons] at ih ⊢; omega

/-- C8: `aggregate_avg` is the arithmetic mean of the non-missing values,
except that it is missing when the input is empty or the missing entries
outnumber the present ones. -/
theorem mean_spec (values : List Cell) :
    aggregate_avg values =
      if values.length = 0 ∨ (presentVals values).length < missingCount values then none
      else some ((presentVals values).sum / ((presentVals values).length : ℚ)) := by
  have hlen := length_split values
  unfold aggregate_avg
  by_cases hnil : values.length = 0
  · simp [hnil]
  · rw [if_neg hnil, aggLoop_spec]
    by_cases hcond : 0 < missingCount values ∧
        values.length < 0 + 2 * missingCount values
    · rw [if_pos hcond, if_pos (by omega)]
    · rw [if_neg hcond, if_neg (by omega)]
      rw [zero_add,
        show values.length - missingCount values = (presentVals values).length from by omega]

theorem recalcLoop_fill (f : Nat) :
    ∀ (a : List Cell) (rest sub : List Cell),
      sub.length + a.length = f → a ≠ [] →
      recalcLoop (f : Int) (a ++ rest) sub =
        aggregate_avg (sub ++ a) :: recalcLoop (f : Int) rest [] := by
  intro a
  induction a with
  | nil => intro rest sub _ hne; exact absurd rfl hne
  | cons x ys ih =>
      intro rest sub hlen _
      match ys with
      | [] =>
          rw [show ([x] : List Cell) ++ rest = x :: rest from rfl]
          rw [show recalcLoop (f : Int) (x :: rest) sub =
            (if ((sub ++ [x]).length : Int) = (f : Int) then
              aggregate_avg (sub ++ [x]) :: recalcLoop (f : Int) rest []
            else recalcLoop (f : Int) rest (sub ++ [x])) from rfl]
          rw [if_pos (by simp at hlen ⊢; omega)]
      | y :: ys' =>
          rw [show (x :: y :: ys') ++ rest = x :: ((y :: ys') ++ rest) from rfl]
          rw [show recalcLoop (f : Int) (x :: ((y :: ys') ++ rest)) sub =
            (if ((sub ++ [x]).length : Int) = (f : Int) then
              aggregate_avg (sub ++ [x]) :: recalcLoop (f : Int) ((y :: ys') ++ rest) []
            else recalcLoop (f : Int) ((y :: ys') ++ rest) (sub ++ [x])) from rfl]
          rw [if_neg (by simp at hlen ⊢; omega)]
          rw [ih rest (sub ++ [x]) (by simp at hlen ⊢; omega) (by simp)]
          rw [List.append_cons sub x (y :: ys')]

theorem recalcLoop_chunks (f : Nat) (hf : 1 ≤ f) :
    ∀ (n : Nat) (vs : List Cell), vs.length = n * f →
      recalcLoop (f : Int) vs [] = (chunksOf f n vs).map aggregate_avg := by
  intro n
  induction n with
  | zero =>
      intro vs hlen
      rw [List.length_eq_zero.mp (by omega : vs.length = 0)]
      rw [show recalcLoop (f : Int) [] [] =
        (if ((0 : Nat) : Int) > (f : Int).ediv 4 then [aggregate_avg []] else []) from rfl]
      rw [if_neg (by
        have : (0 : Int) ≤ (f : Int).ediv 4 := Int.ediv_nonneg (by positivity) (by norm_num)
        omega)]
      rfl
  | succ n ih =>
      intro vs hlen
      rw [Nat.succ_mul] at hlen
      have hfill := recalcLoop_fill f (vs.take f) (vs.drop f) []
        (by simp [List.length_take]; omega)
        (by
          have hl : (vs.take f).length = f := by simp [List.length_take]; omega
          intro hc
          rw [hc] at hl
          simp at hl
          omega)
      rw [List.take_append_drop] at hfill
      rw [hfill, ih (vs.drop f) (by simp [List.length_drop]; omega)]
      rw [show chunksOf f (n + 1) vs = vs.take f :: chunksOf f n (vs.drop f) from rfl]
      simp only [List.nil_append, List.map_cons]

theorem chunksOf_length (f : Nat) : ∀ (n : Nat) (vs : List Cell),
    (chunksOf f n vs).length = n := by
  intro n
  induction n with
  | zero => intro vs; rfl
  | succ n ih => intro vs; simp [chunksOf, ih]

/-- C9: `recalculateSeries` on a value list whose length is a multiple of
`factor = newStep/oldStep` partitions it into consecutive chunks of size
`factor` and emits `aggregate_avg` of each chunk; the output length is the
number of chunks. -/
theorem downsample_law (old_timeStep new_timeStep : Int) (f : Nat) (hf : 1 ≤ f)
    (hfac : new_timeStep.ediv old_timeStep = (f : Int)) (vs : List Cell) (n : Nat)
    (hlen : vs.length = n * f) :
    recalculateSeries vs old_timeStep new_timeStep =
      (chunksOf f n vs).map aggregate_avg ∧
    (recalculateSeries vs old_timeStep new_timeStep).length = n := by
  have h : recalculateSeries vs old_timeStep new_timeStep =
      (chunksOf f n vs).map aggregate_avg := by
    unfold recalculateSeries
    rw [hfac]
    exact recalcLoop_chunks f hf n vs hlen
  exact ⟨h, by rw [h]; simp [chunksOf_length]⟩

/-- Witness for C9: ten values at step 60 rebucketed to step 300. -/
theorem downsample_law_witness :
    recalculateSeries
        [some 1, some 2, some 3, some 4, some 5,
         some 6, some 7, some 8, some 9, some (10 : ℚ)] 60 300 =
      (chunksOf 5 2
        [some 1, some 2, some 3, some 4, some 5,
         some 6, some 7, some 8, some 9, some 10]).map aggregate_avg ∧
    (recalculateSeries
        [some 1, some 2, some 3, some 4, some 5,
         some 6, some 7, some 8, some 9, some (10 : ℚ)] 60 300).length = 2 :=
  downsample_law 60 300 5 (by decide) (by decide) _ 2 (by decide)

/-- C6 counterexample: with slices `[0,60)` and `[600,660)` the interval
`[120,180)` lies in the gap between the slices, so the union of the slice
intervals does not intersect it, yet `hasDataForInterval` returns true:
the source only checks the envelope `[earliest.startTime, newest.endTime)`. -/
theorem has_data_gap_counterexample :
    hasDataForInterval ⟨60, [⟨0, 60, [some 1]⟩, ⟨600, 60, [some 2]⟩]⟩
        (some 120) (some 180) = true ∧
      specUnionIntersects ⟨60, [⟨0, 60, [some 1]⟩, ⟨600, 60, [some 2]⟩]⟩ 120 180 =
        false := ⟨rfl, rfl⟩

/-- C6 amended: for nonzero bounds, `hasDataForInterval` is true exactly
when some slice exists and the envelope from the oldest slice's start to
the newest slice's end intersects `[from, until)`; gaps between slices are
not considered. -/
theorem has_data_envelope (n : NodeState) (f u : Int) (hf : f ≠ 0) (hu : u ≠ 0) :
    hasDataForInterval n (some f) (some u) = true ↔
      readSlices n.dir ≠ [] ∧
      f < ((readSlices n.dir).headD ⟨0, 0, []⟩).endTime ∧
      ((readSlices n.dir).getLastD ⟨0, 0, []⟩).startTime < u := by
  rcases h : readSlices n.dir with _ | ⟨s, rest⟩
  · simp [hasDataForInterval, h]
  · simp [hasDataForInterval, h, hf, hu]

/-- Witness for the amended C6 on a single slice `[0,60)`. -/
theorem has_data_envelope_witness :
    hasDataForInterval ⟨60, [⟨0, 60, [some (1 : ℚ)]⟩]⟩ (some 30) (some 90) = true ↔
      readSlices [⟨0, 60, [some (1 : ℚ)]⟩] ≠ [] ∧
      (30 : Int) < ((readSlices [⟨0, 60, [some (1 : ℚ)]⟩]).headD ⟨0, 0, []⟩).endTime ∧
      ((readSlices [⟨0, 60, [some (1 : ℚ)]⟩]).getLastD ⟨0, 0, []⟩).startTime < 90 :=
  has_data_envelope ⟨60, [⟨0, 60, [some 1]⟩]⟩ 30 90 (by decide) (by decide)

/-- C10: once a name is in the tree's node cache, `getNode` returns the
cached node unchanged without consulting the filesystem: the answer is the
same under any `isNodeDir` view, in particular one where the node
directory has been deleted, and the cache is never modified. -/
theorem node_cache_stale (cache : List (String × CNode)) (isNodeDir : String → Bool)
    (name : String) (nd : CNode) (h : cache.lookup name = some nd) :
    getNode cache isNodeDir name = (some nd, cache) := by
  simp [getNode, h]

/-- Witness for C10: a cached node is returned even though the filesystem
view says the directory no longer exists. -/
theorem node_cache_stale_witness :
    getNode [("a.b", ⟨"a.b"⟩)] (fun _ => false) "a.b" =
      (some ⟨"a.b"⟩, [("a.b", ⟨"a.b"⟩)]) :=
  node_cache_stale [("a.b", ⟨"a.b"⟩)] (fun _ => false) "a.b" ⟨"a.b"⟩ (by rfl)

theorem mkSeq_filterMap (t0 s : Int) (vs : List ℚ) :
    (mkPoints t0 s vs).filterMap (fun p => p.2.map (fun v => (p.1, v))) =
      mkSeq t0 s vs := by
  unfold mkPoints
  induction vs generalizing t0 with
  | nil => rfl
  | cons v vs ih => simp [mkSeq, ih]

theorem sortPoints_mkSeq (t0 s : Int) (hs : 0 < s) (vs : List ℚ) :
    sortPoints (mkSeq t0 s vs) = mkSeq t0 s vs := by
  induction vs generalizing t0 with
  | nil => rfl
  | cons v vs ih =>
      rw [show mkSeq t0 s (v :: vs) = (t0, v) :: mkSeq (t0 + s) s vs from rfl]
      rw [show sortPoints ((t0, v) :: mkSeq (t0 + s) s vs) =
        insertPt (t0, v) (sortPoints (mkSeq (t0 + s) s vs)) from rfl]
      rw [ih (t0 + s)]
      match vs with
      | [] => rfl
      | w :: ws =>
          rw [show mkSeq (t0 + s) s (w :: ws) =
            (t0 + s, w) :: mkSeq (t0 + s + s) s ws from rfl]
          rw [show insertPt (t0, v) ((t0 + s, w) :: mkSeq (t0 + s + s) s ws) =
            (if ptBefore (t0, v) (t0 + s, w) then
              (t0, v) :: (t0 + s, w) :: mkSeq (t0 + s + s) s ws
            else (t0 + s, w) :: insertPt (t0, v) (mkSeq (t0 + s + s) s ws)) from rfl]
          rw [if_pos (by simp [ptBefore]; omega)]

theorem compactLoop_mkSeq (s : Int) (hs : 0 < s) (vs : List ℚ) :
    ∀ (t0 : Int) (sequences : List (List (Int × ℚ))) (q : Int × ℚ)
      (qs : List (Int × ℚ)),
      ((q :: qs).getLastD (0, 0)).1 = t0 - s →
      t0.emod s = 0 →
      compactLoop s (mkSeq t0 s vs) sequences (q :: qs) (t0 - s) =
        sequences ++ [(q :: qs) ++ mkSeq t0 s vs] := by
  induction vs with
  | nil =>
      intro t0 sequences q qs hlast hmod
      simp [mkSeq, compactLoop]
  | cons v vs ih =>
      intro t0 sequences q qs hlast hmod
      rw [show mkSeq t0 s (v :: vs) = (t0, v) :: mkSeq (t0 + s) s vs from rfl]
      rw [show compactLoop s ((t0, v) :: mkSeq (t0 + s) s vs) sequences (q :: qs)
          (t0 - s) =
        (if ¬ (t0 - t0.emod s) > (t0 - s) then
          compactLoop s (mkSeq (t0 + s) s vs) sequences (q :: qs) (t0 - s)
        else if (t0 - t0.emod s) = ((q :: qs).getLastD (0, 0)).1 + s then
          compactLoop s (mkSeq (t0 + s) s vs) sequences
            ((q :: qs) ++ [(t0 - t0.emod s, v)]) (t0 - t0.emod s)
        else compactLoop s (mkSeq (t0 + s) s vs) (sequences ++ [q :: qs])
          [(t0 - t0.emod s, v)] (t0 - t0.emod s)) from rfl]
      rw [hmod]
      rw [if_neg (by omega), if_pos (by rw [hlast]; omega)]
      simp only [sub_zero]
      have hlast2 : ((q :: (qs ++ [(t0, v)])).getLastD (0, 0)).1 = (t0 + s) - s := by
        rw [← List.cons_append, List.getLastD_concat]
        omega
      have h := ih (t0 + s) sequences q (qs ++ [(t0, v)]) hlast2
        (aligned_add_step t0 s hmod)
      rw [show (t0 + s - s : Int) = t0 by ring] at h
      rw [← List.cons_append] at h
      rw [h]
      simp

theorem compact_mkPoints (s t0 : Int) (hs : 0 < s) (ht : t0.emod s = 0)
    (v : ℚ) (vs : List ℚ) :
    compact s (mkPoints t0 s (v :: vs)) = [mkSeq t0 s (v :: vs)] := by
  unfold compact
  rw [mkSeq_filterMap, sortPoints_mkSeq t0 s hs]
  rw [show mkSeq t0 s (v :: vs) = (t0, v) :: mkSeq (t0 + s) s vs from rfl]
  rw [show compactLoop s ((t0, v) :: mkSeq (t0 + s) s vs) [] [] 0 =
    compactLoop s (mkSeq (t0 + s) s vs) [] [(t0 - t0.emod s, v)] (t0 - t0.emod s)
    from rfl]
  rw [ht]
  simp only [sub_zero]
  have h := compactLoop_mkSeq s hs vs (t0 + s) [] (t0, v) []
    (by simp) (aligned_add_step t0 s ht)
  rw [show (t0 + s - s : Int) = t0 by ring] at h
  rw [h]
  simp [mkSeq]

theorem mkSeq_map_values (t0 s : Int) (vs : List ℚ) :
    (mkSeq t0 s vs).map (fun q => (some q.2 : Cell)) = vs.map some := by
  induction vs generalizing t0 with
  | nil => rfl
  | cons v vs ih => simp [mkSeq, ih]

theorem sliceWrite_fresh (s t0 : Int) (v0 : ℚ) (ps : List (Int × ℚ)) :
    sliceWrite ⟨t0, s, []⟩ ((t0, v0) :: ps) =
      .ok ⟨t0, s, ((t0, v0) :: ps).map (fun q => some q.2)⟩ := by
  simp only [sliceWrite]
  rw [show ((t0, v0).1 - t0 : Int) = 0 from by simp]
  rw [show Int.ediv (0 : Int) s = 0 from Int.zero_ediv s]
  norm_num [SliceData.fileSize, writeAt]

theorem writeLoop_no_slices (s : Int) (fuel : Nat) (t0 : Int) (v0 : ℚ)
    (ps : List (Int × ℚ)) (needs : List (List (Int × ℚ))) :
    writeLoop s (fuel + 1) [] [(t0, v0) :: ps] needs =
      .ok ([], [(t0, v0) :: ps]) := rfl

theorem nodeWrite_fresh (s t0 : Int) (hs : 0 < s) (ht : t0.emod s = 0)
    (v : ℚ) (vs : List ℚ) :
    nodeWrite ⟨s, []⟩ (mkPoints t0 s (v :: vs)) =
      .ok ⟨s, [⟨t0, s, (v :: vs).map some⟩]⟩ := by
  unfold nodeWrite
  rw [if_neg (by simp [mkPoints, mkSeq])]
  rw [compact_mkPoints s t0 hs ht v vs]
  rw [show mkSeq t0 s (v :: vs) = (t0, v) :: mkSeq (t0 + s) s vs from rfl]
  dsimp only
  rw [writeLoop_no_slices]
  dsimp only
  rw [show needsLoop s [] [(t0, v) :: mkSeq (t0 + s) s vs] =
    (match sliceWrite ⟨t0, s, []⟩ ((t0, v) :: mkSeq (t0 + s) s vs) with
     | .ok sl => needsLoop s (([] : List SliceData).filter
         (fun x => !(decide (x.startTime = t0) && decide (x.timeStep = s))) ++ [sl]) []
     | .error e => .error e) from rfl]
  rw [sliceWrite_fresh]
  rw [show ((t0, v) :: mkSeq (t0 + s) s vs).map (fun q => (some q.2 : Cell)) =
    (v :: vs).map some from mkSeq_map_values t0 s (v :: vs)]
  rfl

theorem sliceRead_full (t0 s : Int) (hs : 0 < s) (cs : List Cell) (hne : cs ≠ []) :
    sliceRead ⟨t0, s, cs⟩ t0 (t0 + (cs.length : Int) * s) =
      .ok ⟨t0, t0 + (cs.length : Int) * s, s, cs⟩ := by
  have hlen : 0 < cs.length := List.length_pos.mpr hne
  simp only [sliceRead]
  rw [show (t0 - t0 : Int) = 0 from sub_self t0]
  rw [if_neg (by norm_num)]
  rw [show Int.ediv (0 : Int) s = 0 from Int.zero_ediv s]
  rw [show (t0 + (cs.length : Int) * s - t0 : Int) = (cs.length : Int) * s from by ring]
  rw [show Int.ediv ((cs.length : Int) * s) s = (cs.length : Int) from
    Int.mul_ediv_cancel _ (ne_of_gt hs)]
  rw [if_neg (by
    simp only [SliceData.fileSize, DATAPOINT_SIZE]
    push_neg
    omega)]
  rw [if_neg (by simp only [DATAPOINT_SIZE]; push_neg; positivity)]
  simp

theorem endTime_single (t0 s : Int) (cs : List Cell) :
    SliceData.endTime ⟨t0, s, cs⟩ = t0 + (cs.length : Int) * s := by
  simp only [SliceData.endTime, SliceData.fileSize, DATAPOINT_SIZE]
  rw [show Int.ediv (8 * (cs.length : Int)) 8 = (cs.length : Int) from
    Int.mul_ediv_cancel_left _ (by norm_num)]

theorem innerBody_single (s t0 : Int) (hs : 0 < s) (cs : List Cell) (hne : cs ≠ []) :
    innerBody s ⟨none, none, none, 0⟩ t0 (t0 + (cs.length : Int) * s) true none
        ⟨t0, s, cs⟩ =
      .ok (⟨none, some t0, some ⟨t0, (t0 + (cs.length : Int) * s) + 0, s, cs ++ []⟩,
        ((cs ++ []).length : Int)⟩, .brk) := by
  simp only [innerBody]
  rw [sliceRead_full t0 s hs cs hne]
  dsimp only
  rw [if_neg (lt_irrefl s)]
  rw [show (t0 + (cs.length : Int) * s - (t0 + (cs.length : Int) * s) : Int) = 0 from
    sub_self _]
  rw [show Int.ediv (0 : Int) s = 0 from Int.zero_ediv s]
  norm_num [tsdAdd]

theorem isBogus_single (s t0 : Int) (hs : 0 < s) (cs : List Cell)
    (hlen : 0 < cs.length) :
    isBogus [⟨t0, s, cs⟩] (t0 + (cs.length : Int) * s) t0 ⟨t0, s, cs⟩ = false := by
  have h1 : (0 : Int) < (cs.length : Int) := by exact_mod_cast hlen
  have hprod : 0 < (cs.length : Int) * s := mul_pos h1 hs
  simp only [isBogus, List.any_cons, List.any_nil, Bool.or_false]
  rw [endTime_single]
  simp only [Bool.or_eq_false_iff, Bool.and_eq_false_iff, decide_eq_false_iff_not]
  refine ⟨⟨Or.inl (by omega), by omega⟩, by omega⟩

theorem innerLoop_single (s t0 : Int) (hs : 0 < s) (cs : List Cell) (hne : cs ≠ []) :
    innerLoop t0 (t0 + (cs.length : Int) * s) s [⟨t0, s, cs⟩]
        ⟨none, none, none, 0⟩ =
      .ok ⟨none, some t0, some ⟨t0, (t0 + (cs.length : Int) * s) + 0, s, cs ++ []⟩,
        ((cs ++ []).length : Int)⟩ := by
  simp only [innerLoop, innerStep]
  rw [if_pos (le_refl t0)]
  rw [innerBody_single s t0 hs cs hne]

theorem outerLoop_single (s t0 : Int) (hs : 0 < s) (cs : List Cell) (hne : cs ≠ []) :
    outerLoop t0 (t0 + (cs.length : Int) * s) s [⟨t0, s, cs⟩] [⟨t0, s, cs⟩] []
        ⟨none, none, none, 0⟩ =
      .ok ⟨none, some t0, some ⟨t0, (t0 + (cs.length : Int) * s) + 0, s, cs ++ []⟩,
        ((cs ++ []).length : Int)⟩ := by
  have hlen : 0 < cs.length := List.length_pos.mpr hne
  simp only [outerLoop]
  rw [isBogus_single s t0 hs cs hlen]
  rw [show ((if false = true then ([] : List SliceData) else [] ++ [⟨t0, s, cs⟩])) =
    [⟨t0, s, cs⟩] from by norm_num]
  rw [innerLoop_single s t0 hs cs hne]

theorem nodeRead_single (s t0 : Int) (hs : 0 < s) (ht : t0.emod s = 0)
    (cs : List Cell) (hne : cs ≠ []) :
    nodeRead ⟨s, [⟨t0, s, cs⟩]⟩ t0 (t0 + (cs.length : Int) * s) =
      .ok ⟨t0, t0 + (cs.length : Int) * s, s, cs⟩ := by
  have hlen : 0 < cs.length := List.length_pos.mpr hne
  have huntil : (t0 + (cs.length : Int) * s).emod s = 0 := by
    rw [emod_eq_mod] at ht ⊢
    rw [Int.add_mul_emod_self]
    exact ht
  unfold nodeRead
  rw [ht, huntil]
  simp only [sub_zero]
  rw [show readSlices [⟨t0, s, cs⟩] = [⟨t0, s, cs⟩] from rfl]
  rw [show stepScan t0 (t0 + (cs.length : Int) * s) [⟨t0, s, cs⟩] 1 =
    (if t0 ≥ t0 then ((if 1 < s then s else 1), [(⟨t0, s, cs⟩ : SliceData)])
     else if t0 + (cs.length : Int) * s ≥ t0 then
       ((stepScan t0 (t0 + (cs.length : Int) * s) [] (if 1 < s then s else 1)).1,
        ⟨t0, s, cs⟩ :: (stepScan t0 (t0 + (cs.length : Int) * s) []
          (if 1 < s then s else 1)).2)
     else ((stepScan t0 (t0 + (cs.length : Int) * s) [] 1).1,
       ⟨t0, s, cs⟩ :: (stepScan t0 (t0 + (cs.length : Int) * s) [] 1).2)) from rfl]
  rw [if_pos (le_refl t0)]
  rw [show (if 1 < s then s else 1) = s from by split_ifs <;> omega]
  rw [outerLoop_single s t0 hs cs hne]
  dsimp only
  rw [show (t0 - t0 : Int) = 0 from sub_self t0]
  rw [show Int.ediv (0 : Int) s = 0 from Int.zero_ediv s]
  simp [tsdAdd]

/-- C1: round trip on a fresh node with step `s > 0`: writing the aligned,
gap-free, strictly increasing sequence `(t0, v), (t0+s, v1), ...` yields a
single slice `t0@s` whose file holds exactly the written values (size 8
bytes per value), and reading `[t0, t0 + n*s)` returns a series with
`startTime = t0`, `endTime = t0 + n*s`, `timeStep = s` and exactly those
values, with no extra missings. -/
theorem write_read_round_trip (s t0 : Int) (hs : 0 < s) (ht : t0.emod s = 0)
    (v : ℚ) (vs : List ℚ) :
    nodeWrite ⟨s, []⟩ (mkPoints t0 s (v :: vs)) =
      .ok ⟨s, [⟨t0, s, (v :: vs).map some⟩]⟩ ∧
    SliceData.fileSize ⟨t0, s, (v :: vs).map some⟩ =
      DATAPOINT_SIZE * ((v :: vs).length : Int) ∧
    nodeRead ⟨s, [⟨t0, s, (v :: vs).map some⟩]⟩ t0
        (t0 + ((v :: vs).length : Int) * s) =
      .ok ⟨t0, t0 + ((v :: vs).length : Int) * s, s, (v :: vs).map some⟩ := by
  refine ⟨nodeWrite_fresh s t0 hs ht v vs, by simp [SliceData.fileSize], ?_⟩
  have h := nodeRead_single s t0 hs ht ((v :: vs).map some) (by simp)
  simpa using h

/-- Witness for C1: the S1 scenario — write `[(60,1),(120,2),(180,3)]` at
step 60 into a fresh node; the single slice `60@60` holds 24 bytes and
reading `[60,240)` returns start 60, end 240, step 60, values `[1,2,3]`. -/
theorem write_read_round_trip_witness :
    mkPoints 60 60 [1, 2, 3] = [(60, some 1), (120, some 2), (180, some 3)] ∧
    (nodeWrite ⟨60, []⟩ (mkPoints 60 60 [1, 2, 3]) =
      .ok ⟨60, [⟨60, 60, [some 1, some 2, some 3]⟩]⟩ ∧
    SliceData.fileSize ⟨60, 60, [some 1, some 2, some 3]⟩ = 24 ∧
    nodeRead ⟨60, [⟨60, 60, [some 1, some 2, some 3]⟩]⟩ 60 240 =
      .ok ⟨60, 240, 60, [some 1, some 2, some 3]⟩) :=
  ⟨rfl, by simpa using write_read_round_trip 60 60 (by decide) (by decide) 1 [2, 3]⟩

end Ceres
